import Mathlib

/-!
# Verification of the unit-cost-calculator edit core

Shallow embedding of the cost-recomputation core of
`src/frontend/src/App.jsx` (`parsePackageSize`, `saveEdit`, and the
component's state-update discipline around them).

Modelling decisions:
* JavaScript numbers are modelled as exact rationals `ℚ`.  All numeric
  inputs reaching this core are decimal literals, so every value is an
  exact decimal fraction; binary floating-point rounding, `NaN` and
  `Infinity` are outside the model (a `parseFloat` result that is not a
  finite number is represented as `none`).
* Strings are `String` / `List Char`.  The character classes `\d` and
  `\s` of the JavaScript regular expression, and the StrWhiteSpace set
  of `parseFloat`, are modelled by `isDigitC` and `isWSC` (the ASCII
  whitespace characters plus NBSP and the BOM; the rarer Unicode space
  characters are not modelled, no claim mentions them).
* The regular expression `/(\d+(?:\.\d+)?)\s*(g|kg|ml|L|item)/i` of
  `parsePackageSize` is unanchored, so `String.match` returns the
  leftmost occurrence.  The embedding scans start positions left to
  right and at each position matches greedily.  Greedy matching without
  backtracking is faithful here: no alternative of the unit group
  starts with a digit, a whitespace character or a dot, so shrinking
  `\d+`, the fraction digits or `\s*` can never turn a failure into a
  success, and retrying the optional fraction as empty after it
  matched leaves the scanner on a dot, which nothing in the rest of
  the pattern accepts.
-/

namespace UnitCostCalc

/-- ASCII decimal digit (code points 48–57), the `\d` class of the
JavaScript regex. -/
def isDigitC (c : Char) : Bool := 48 ≤ c.toNat && c.toNat ≤ 57

/-- Whitespace as used by the regex `\s` and by `parseFloat`:
space, tab, LF, CR, VT, FF, NBSP, BOM. -/
def isWSC (c : Char) : Bool :=
  c.toNat = 32 || c.toNat = 9 || c.toNat = 10 || c.toNat = 13 ||
  c.toNat = 11 || c.toNat = 12 || c.toNat = 160 || c.toNat = 65279

/-- ASCII lowercasing, the case folding performed by the regex flag `i`
and by `String.prototype.toLowerCase` on the unit token. -/
def toLowerA (c : Char) : Char :=
  if 65 ≤ c.toNat && c.toNat ≤ 90 then Char.ofNat (c.toNat + 32) else c

/-- Numeric value of a run of decimal digit characters. -/
def digitsToNat (l : List Char) : ℕ :=
  l.foldl (fun n c => 10 * n + (c.toNat - 48)) 0

/-- Exact value of the decimal literal made of integer digits `ds` and
an optional run of fraction digits (`parseFloat` of `match[1]`). -/
def decValue (ds : List Char) (fso : Option (List Char)) : ℚ :=
  (digitsToNat ds : ℚ) +
    match fso with
    | none => 0
    | some fs => (digitsToNat fs : ℚ) / 10 ^ fs.length

/-- The unit token captured by the second group of the regex, already
lowercased (`match[2].toLowerCase()`). -/
inductive UnitTok where
  | g
  | kg
  | ml
  | l
  | item
deriving DecidableEq, Repr

/-- Base unit family: the strings `'g'`, `'ml'`, `'item'` the code
stores in `unit` fields. -/
inductive BaseUnit where
  | gram
  | milliliter
  | item
deriving DecidableEq, Repr

/-- Result of `parsePackageSize`: the `{ value, unit }` object. -/
structure NormalizedSize where
  value : ℚ
  unit : BaseUnit
deriving DecidableEq, Repr

/-- Match a fixed lowercase pattern case-insensitively at the front of
the input, returning the rest on success. -/
def eatTok : List Char → List Char → Option (List Char)
  | [], s => some s
  | _ :: _, [] => none
  | p :: ps, c :: cs => if toLowerA c = p then eatTok ps cs else none

/-- The alternation `(g|kg|ml|L|item)` with the `i` flag, tried in the
source order of the regex. -/
def matchUnitTok (s : List Char) : Option (UnitTok × List Char) :=
  match eatTok ['g'] s with
  | some r => some (.g, r)
  | none =>
    match eatTok ['k', 'g'] s with
    | some r => some (.kg, r)
    | none =>
      match eatTok ['m', 'l'] s with
      | some r => some (.ml, r)
      | none =>
        match eatTok ['l'] s with
        | some r => some (.l, r)
        | none => (eatTok ['i', 't', 'e', 'm'] s).map (fun r => (.item, r))

/-- The optional fraction `(?:\.\d+)?`: captured fraction digits (if
any) and the rest of the input. -/
def matchFrac (s : List Char) : Option (List Char) × List Char :=
  match s with
  | [] => (none, [])
  | c :: r =>
    if c = '.' then
      let fs := r.takeWhile isDigitC
      if fs.isEmpty then (none, c :: r) else (some fs, r.dropWhile isDigitC)
    else (none, c :: r)

/-- Attempt the whole pattern `\d+(?:\.\d+)?\s*(g|kg|ml|L|item)` at one
start position: the parsed magnitude of group 1 and the unit of
group 2 on success. -/
def matchAt (s : List Char) : Option (ℚ × UnitTok) :=
  let ds := s.takeWhile isDigitC
  if ds.isEmpty then none
  else
    let r1 := s.dropWhile isDigitC
    let (fso, r2) := matchFrac r1
    let r3 := r2.dropWhile isWSC
    match matchUnitTok r3 with
    | none => none
    | some (u, _) => some (decValue ds fso, u)

/-- Leftmost match of the unanchored regex: try each start position in
order (`String.prototype.match` without the `g` flag). -/
def findMatch : List Char → Option (ℚ × UnitTok)
  | [] => none
  | c :: rest =>
    match matchAt (c :: rest) with
    | some x => some x
    | none => findMatch rest

/-- `parsePackageSize` of App.jsx on the character list: leftmost regex
match, `kg` and `l` scaled by 1000, unit collapsed to its base
family. -/
def parsePackageSizeL (s : List Char) : Option NormalizedSize :=
  match findMatch s with
  | none => none
  | some (v, u) =>
    let v := if u = .kg then v * 1000 else v
    let v := if u = .l then v * 1000 else v
    some { value := v,
           unit := match u with
             | .item => .item
             | .ml => .milliliter
             | .l => .milliliter
             | _ => .gram }

/-- `parsePackageSize` on strings. -/
def parsePackageSize (s : String) : Option NormalizedSize :=
  parsePackageSizeL s.data

/-! ## `parseFloat`

`Number.parseFloat` as specified by ECMA-262: skip StrWhiteSpace, then
take the longest prefix that is a StrDecimalLiteral (optional sign,
digits with optional dot and fraction, or a dot and fraction, each with
an optional exponent part); the result is `NaN` — here `none` — if that
prefix is empty.  The literal `Infinity` is not a finite number and is
likewise outside the rational model, so it maps to `none`. -/

/-- Value of a complete exponent part `[eE][+-]?\d+` at the front of
the input, `0` when no complete exponent part is present (the longest
valid literal prefix then stops before the `e`). -/
def parseExp (t : List Char) : ℤ :=
  match t with
  | [] => 0
  | c :: rest =>
    if c = 'e' ∨ c = 'E' then
      match rest with
      | [] => 0
      | c2 :: r3 =>
        if c2 = '+' then
          let ds := r3.takeWhile isDigitC
          if ds.isEmpty then 0 else (digitsToNat ds : ℤ)
        else if c2 = '-' then
          let ds := r3.takeWhile isDigitC
          if ds.isEmpty then 0 else -(digitsToNat ds : ℤ)
        else
          let ds := (c2 :: r3).takeWhile isDigitC
          if ds.isEmpty then 0 else (digitsToNat ds : ℤ)
    else 0

/-- Unsigned part of the decimal literal: `\d+(\.\d*)?` or `\.\d+`,
followed by an optional exponent part. -/
def parseUnsignedDec (t : List Char) : Option ℚ :=
  let ds := t.takeWhile isDigitC
  let r1 := t.dropWhile isDigitC
  if ds.isEmpty then
    match t with
    | [] => none
    | c :: r2 =>
      if c = '.' then
        let fs := r2.takeWhile isDigitC
        if fs.isEmpty then none
        else
          some (decValue [] (some fs) *
            (10 : ℚ) ^ parseExp (r2.dropWhile isDigitC))
      else none
  else
    match r1 with
    | [] => some (decValue ds none * (10 : ℚ) ^ parseExp r1)
    | c :: r2 =>
      if c = '.' then
        let fs := r2.takeWhile isDigitC
        some (decValue ds (if fs.isEmpty then none else some fs) *
          (10 : ℚ) ^ parseExp (r2.dropWhile isDigitC))
      else some (decValue ds none * (10 : ℚ) ^ parseExp r1)

/-- `parseFloat` on the character list. -/
def parseFloatL (s : List Char) : Option ℚ :=
  match s.dropWhile isWSC with
  | [] => none
  | c :: r =>
    if c = '+' then parseUnsignedDec r
    else if c = '-' then (parseUnsignedDec r).map Neg.neg
    else parseUnsignedDec (c :: r)

/-- `parseFloat` on strings. -/
def parseFloatStr (s : String) : Option ℚ :=
  parseFloatL s.data

/-! ## Rendering a number back to a string

`saveEdit` rebuilds the package-size string with the template literal
`` `${packageSize}${displayUnit}` ``, which stringifies the number with
`Number.prototype.toString`: for the decimal fractions this core
produces, the shortest plain decimal form (integer part, and the
fraction digits without trailing zeros when the value is not an
integer).  The exponential display JavaScript switches to beyond
`1e21` / below `1e-6` is not modelled. -/

/-- Multiplicity of `p` in `n`, with explicit fuel. -/
def multPB : ℕ → ℕ → ℕ → ℕ
  | 0, _, _ => 0
  | fuel + 1, p, n =>
    if 2 ≤ p && 0 < n && n % p = 0 then multPB fuel p (n / p) + 1 else 0

/-- Left-pad a digit string with zeros to length `k`. -/
def padZeros (s : String) (k : ℕ) : String :=
  String.mk (List.replicate (k - s.length) '0') ++ s

/-- Shortest plain decimal rendering of a decimal fraction
(`Number.prototype.toString` for the values this core produces). -/
def qToDecString (q : ℚ) : String :=
  let sgn := if q < 0 then "-" else ""
  let n := q.num.natAbs
  let d := q.den
  let k := max (multPB d 2 d) (multPB d 5 d)
  let scaled := n * 10 ^ k / d
  let ip := scaled / 10 ^ k
  let fp := scaled % 10 ^ k
  if k = 0 then sgn ++ Nat.repr ip
  else sgn ++ Nat.repr ip ++ "." ++ padZeros (Nat.repr fp) k

/-! ## Data model

The `RecipeResult` payload held in the component's `result` state, as
described by the upstream boundary of the spec and consumed by
`saveEdit`.  `unit` fields are the strings `'g'` / `'ml'` / `'item'`,
modelled by `BaseUnit`. -/

/-- The `package_info` object of an ingredient. -/
structure PackageInfo where
  size : String
  price : ℚ
  cost_per_unit : ℚ
  unit : BaseUnit
deriving DecidableEq, Repr

/-- One entry of `result.ingredients`. -/
structure IngredientLine where
  ingredient : String
  quantity : ℚ
  unit : BaseUnit
  cost : ℚ
  manually_adjusted : Bool
  package_info : Option PackageInfo
  note : Option String
deriving DecidableEq, Repr

/-- The `result` payload. -/
structure RecipeResult where
  recipe_name : Option String
  ingredients : List IngredientLine
  total_cost : ℚ
  yield_count : ℕ
  unit_cost : ℚ
deriving DecidableEq, Repr

/-- The display-unit string chosen by `saveEdit`:
`ing.unit === 'ml' ? 'ml' : (ing.unit === 'item' ? 'item' : 'g')`. -/
def unitDisplay (u : BaseUnit) : String :=
  match u with
  | .milliliter => "ml"
  | .item => "item"
  | .gram => "g"

/-- Validation failures of `saveEdit` (the two `alert` early returns),
plus the `TypeError` a missing `ingredients[index]` would raise. -/
inductive SaveEditError where
  | invalidPackageSize
  | invalidPackagePrice
  | typeError
deriving DecidableEq, Repr

/-- The successful tail of `saveEdit`, once both inputs are parsed and
validated and the line has been read: new cost per unit, new line cost,
rebuilt `package_info`, the line replaced in a copy of the array, and
the totals re-derived.  The code stores `displayUnit` in the new
`package_info.unit`; on the `BaseUnit` model that string denotes the
line's own unit family. -/
def recompute (result : RecipeResult) (index : ℕ)
    (packageSize packagePrice : ℚ) (ing : IngredientLine) : RecipeResult :=
  let newCostPerUnit := packagePrice / packageSize
  let newIngredientCost := newCostPerUnit * ing.quantity
  let newLine : IngredientLine :=
    { ing with
      cost := newIngredientCost
      manually_adjusted := true
      package_info := some
        { size := qToDecString packageSize ++ unitDisplay ing.unit
          price := packagePrice
          cost_per_unit := newCostPerUnit
          unit := ing.unit } }
  let updatedIngredients := result.ingredients.set index newLine
  let newTotalCost := updatedIngredients.foldl (fun sum ing => sum + ing.cost) 0
  let newUnitCost := newTotalCost / (result.yield_count : ℚ)
  { result with
    ingredients := updatedIngredients
    total_cost := newTotalCost
    unit_cost := newUnitCost }

/-- `saveEdit` of App.jsx: parse both raw inputs with `parseFloat`,
reject a non-number or non-positive size, then a non-number or negative
price, read `ingredients[index]` and recompute.  The component state
update `setResult` is modelled by returning the new `RecipeResult`;
the `alert` early returns are the error values. -/
def saveEdit (result : RecipeResult) (index : ℕ)
    (rawSize rawPrice : String) : Except SaveEditError RecipeResult :=
  match parseFloatStr rawSize with
  | none => .error .invalidPackageSize
  | some packageSize =>
    if packageSize ≤ 0 then .error .invalidPackageSize
    else
      match parseFloatStr rawPrice with
      | none => .error .invalidPackagePrice
      | some packagePrice =>
        if packagePrice < 0 then .error .invalidPackagePrice
        else
          match result.ingredients.get? index with
          | none => .error .typeError
          | some ing => .ok (recompute result index packageSize packagePrice ing)

/-- The caller's state after a `saveEdit` attempt: `setResult` runs
only on the success path, an `alert` early return leaves `result`
untouched. -/
def applySaveEdit (result : RecipeResult) (index : ℕ)
    (rawSize rawPrice : String) : RecipeResult :=
  match saveEdit result index rawSize rawPrice with
  | .error _ => result
  | .ok res => res

/-! ## Concrete fixtures

Recipe payloads used to evaluate the operations on the spec's concrete
scenarios. -/

/-- The spec's first scenario: one ingredient of 60 g whose package is
"454g" at 3.50. -/
def sampleRecipe1 : RecipeResult :=
  { recipe_name := some "Chocolate Chip Protein Cookies"
    ingredients :=
      [{ ingredient := "oats"
         quantity := 60
         unit := .gram
         cost := 23 / 50
         manually_adjusted := false
         package_info := some
           { size := "454g", price := 7 / 2, cost_per_unit := 7 / 908,
             unit := .gram }
         note := none }]
    total_cost := 23 / 50
    yield_count := 6
    unit_cost := 23 / 300 }

/-- The spec's second scenario: two lines costing 0.48 and 0.22 with a
yield of 6. -/
def sampleRecipe2 : RecipeResult :=
  { recipe_name := none
    ingredients :=
      [{ ingredient := "flour"
         quantity := 1
         unit := .gram
         cost := 12 / 25
         manually_adjusted := false
         package_info := some
           { size := "1g", price := 12 / 25, cost_per_unit := 12 / 25,
             unit := .gram }
         note := none },
       { ingredient := "milk"
         quantity := 2
         unit := .milliliter
         cost := 11 / 50
         manually_adjusted := false
         package_info := some
           { size := "10ml", price := 11 / 10, cost_per_unit := 11 / 100,
             unit := .milliliter }
         note := some "estimated from a regional average" }]
    total_cost := 7 / 10
    yield_count := 6
    unit_cost := 7 / 60 }

/-! ## Statement helpers

Vocabulary for stating the normalizer claims: the shape of a
well-formed size string and the scale / base unit the spec assigns to
each unit token. -/

/-- The characters contributed by an optional fractional part. -/
def fracStr : Option (List Char) → List Char
  | none => []
  | some fs => '.' :: fs

/-- Scale factor the spec assigns to a (lowercased) unit token:
`kg` and `l` scale by 1000, the others pass through. -/
def tokUnitScale (t : List Char) : ℚ :=
  if t = ['k', 'g'] ∨ t = ['l'] then 1000 else 1

/-- Base unit the spec assigns to a (lowercased) unit token. -/
def tokUnitBase (t : List Char) : BaseUnit :=
  if t = ['m', 'l'] ∨ t = ['l'] then .milliliter
  else if t = ['i', 't', 'e', 'm'] then .item
  else .gram

/-- Modelled from the spec's input grammar for the normalizer (claim
C4 reads the grammar as anchored): a sign-free decimal number, optional
whitespace, then a unit token from \x7bg, kg, ml, l, item\x7d matched
case-insensitively, with nothing before or after.  This follows the
spec's words, for comparison against `parsePackageSize`, which matches
the unanchored regular expression. -/
def specSizeGrammar (s : List Char) : Bool :=
  let ds := s.takeWhile isDigitC
  let r1 := s.dropWhile isDigitC
  if ds.isEmpty then false
  else
    let r2 :=
      match r1 with
      | '.' :: r =>
        if (r.takeWhile isDigitC).isEmpty then r1 else r.dropWhile isDigitC
      | _ => r1
    let r3 := r2.dropWhile isWSC
    [['g'], ['k', 'g'], ['m', 'l'], ['l'], ['i', 't', 'e', 'm']].contains
      (r3.map toLowerA)

attribute [local semireducible] Rat.mul Rat.add Rat.inv Rat.sub

/-- An occurrence of the size pattern somewhere in the input: a
substring consisting of a sign-free decimal number, optional
whitespace, and a unit token from g / kg / ml / l / item matched
case-insensitively.  This is the spec's grammar embedded in arbitrary
surrounding text; `parsePackageSize` fails exactly on inputs with no
such occurrence. -/
def SizeOccurrence (l : List Char) : Prop :=
  ∃ pre ds fso ws tok post,
    l = pre ++ (ds ++ (fracStr fso ++ (ws ++ (tok ++ post)))) ∧
    ds ≠ [] ∧ (∀ c ∈ ds, isDigitC c = true) ∧
    (∀ fs, fso = some fs → fs ≠ [] ∧ ∀ c ∈ fs, isDigitC c = true) ∧
    (∀ c ∈ ws, isWSC c = true) ∧
    (tok.map toLowerA = ['g'] ∨ tok.map toLowerA = ['k', 'g'] ∨
      tok.map toLowerA = ['m', 'l'] ∨ tok.map toLowerA = ['l'] ∨
      tok.map toLowerA = ['i', 't', 'e', 'm'])

/-! ## Character-class lemmas -/

theorem digit_toLowerA {c : Char} (h : isDigitC c = true) : toLowerA c = c := by
  simp only [isDigitC, Bool.and_eq_true, decide_eq_true_eq] at h
  simp only [toLowerA]
  rw [if_neg]
  simp only [Bool.and_eq_true, decide_eq_true_eq, not_and]
  omega

theorem ws_toLowerA {c : Char} (h : isWSC c = true) : toLowerA c = c := by
  simp only [isWSC, Bool.or_eq_true, decide_eq_true_eq] at h
  simp only [toLowerA]
  rw [if_neg]
  simp only [Bool.and_eq_true, decide_eq_true_eq, not_and]
  omega

theorem ws_not_digit {c : Char} (h : isWSC c = true) : isDigitC c = false := by
  simp only [isWSC, Bool.or_eq_true, decide_eq_true_eq] at h
  simp only [isDigitC, Bool.and_eq_true, decide_eq_true_eq]
  simp only [Bool.and_eq_false_iff, decide_eq_false_iff_not]
  omega

theorem ws_ne_dot {c : Char} (h : isWSC c = true) : c ≠ '.' := by
  intro hc
  subst hc
  exact absurd h (by decide)

theorem notDigit_of_lower {c x : Char} (hl : toLowerA c = x)
    (hx : isDigitC x = false) : isDigitC c = false := by
  cases hd : isDigitC c with
  | false => rfl
  | true =>
    rw [digit_toLowerA hd] at hl
    rw [hl] at hd
    rw [hd] at hx
    exact absurd hx (by simp)

theorem notWS_of_lower {c x : Char} (hl : toLowerA c = x)
    (hx : isWSC x = false) : isWSC c = false := by
  cases hw : isWSC c with
  | false => rfl
  | true =>
    rw [ws_toLowerA hw] at hl
    rw [hl] at hw
    rw [hw] at hx
    exact absurd hx (by simp)

theorem ne_dot_of_lower {c x : Char} (hl : toLowerA c = x)
    (hx : x ≠ '.') : c ≠ '.' := by
  intro hc
  subst hc
  exact hx (by rw [← hl]; decide)

/-! ## Splitting `takeWhile` / `dropWhile` over an append -/

theorem span_append {α : Type} (p : α → Bool) (xs ys : List α)
    (hxs : ∀ x ∈ xs, p x = true)
    (hys : ∀ y, ys.head? = some y → p y = false) :
    (xs ++ ys).takeWhile p = xs ∧ (xs ++ ys).dropWhile p = ys := by
  induction xs with
  | nil =>
    simp only [List.nil_append]
    cases ys with
    | nil => simp
    | cons y t =>
      have hy : p y = false := hys y rfl
      constructor
      · rw [List.takeWhile_cons_of_neg (by simp [hy])]
      · rw [List.dropWhile_cons_of_neg (by simp [hy])]
  | cons x xs ih =>
    have hx : p x = true := hxs x (by simp)
    obtain ⟨h1, h2⟩ := ih (fun a ha => hxs a (by simp [ha]))
    constructor
    · rw [List.cons_append, List.takeWhile_cons_of_pos hx, h1]
    · rw [List.cons_append, List.dropWhile_cons_of_pos hx, h2]

/-! ## Unfolding lemmas for the scanner -/

theorem matchFrac_some (fs rest : List Char) (hne : fs ≠ [])
    (hfs : ∀ c ∈ fs, isDigitC c = true)
    (hrest : ∀ y, rest.head? = some y → isDigitC y = false) :
    matchFrac ('.' :: (fs ++ rest)) = (some fs, rest) := by
  obtain ⟨h1, h2⟩ := span_append isDigitC fs rest hfs hrest
  have hfe : fs.isEmpty = false := by
    cases fs with
    | nil => exact absurd rfl hne
    | cons a t => rfl
  simp [matchFrac, h1, h2, hfe]

theorem matchFrac_of_ne_dot (s : List Char)
    (h : ∀ y, s.head? = some y → y ≠ '.') :
    matchFrac s = (none, s) := by
  cases s with
  | nil => rfl
  | cons c r =>
    simp only [matchFrac]
    rw [if_neg (h c rfl)]

theorem matchAt_no_digit (c : Char) (r : List Char)
    (hc : isDigitC c = false) : matchAt (c :: r) = none := by
  simp only [matchAt]
  rw [List.takeWhile_cons_of_neg (by simp [hc])]
  simp

theorem findMatch_no_digit (l : List Char)
    (h : ∀ c ∈ l, isDigitC c = false) : findMatch l = none := by
  induction l with
  | nil => rfl
  | cons c r ih =>
    simp only [findMatch]
    rw [matchAt_no_digit c r (h c (by simp))]
    exact ih (fun a ha => h a (by simp [ha]))

/-! ## The unit alternation on a recognised token -/

theorem matchUnitTok_lower_g (tok : List Char)
    (h : tok.map toLowerA = ['g']) : matchUnitTok tok = some (.g, []) := by
  cases tok with
  | nil => simp at h
  | cons c1 t1 =>
    cases t1 with
    | nil =>
      simp only [List.map_cons, List.map_nil, List.cons.injEq, and_true] at h
      simp [matchUnitTok, eatTok, h]
    | cons c2 t2 => simp at h

theorem matchUnitTok_lower_kg (tok : List Char)
    (h : tok.map toLowerA = ['k', 'g']) : matchUnitTok tok = some (.kg, []) := by
  cases tok with
  | nil => simp at h
  | cons c1 t1 =>
    cases t1 with
    | nil => simp at h
    | cons c2 t2 =>
      cases t2 with
      | nil =>
        simp only [List.map_cons, List.map_nil, List.cons.injEq, and_true] at h
        simp [matchUnitTok, eatTok, h.1, h.2]
      | cons c3 t3 => simp at h

theorem matchUnitTok_lower_ml (tok : List Char)
    (h : tok.map toLowerA = ['m', 'l']) : matchUnitTok tok = some (.ml, []) := by
  cases tok with
  | nil => simp at h
  | cons c1 t1 =>
    cases t1 with
    | nil => simp at h
    | cons c2 t2 =>
      cases t2 with
      | nil =>
        simp only [List.map_cons, List.map_nil, List.cons.injEq, and_true] at h
        simp [matchUnitTok, eatTok, h.1, h.2]
      | cons c3 t3 => simp at h

theorem matchUnitTok_lower_l (tok : List Char)
    (h : tok.map toLowerA = ['l']) : matchUnitTok tok = some (.l, []) := by
  cases tok with
  | nil => simp at h
  | cons c1 t1 =>
    cases t1 with
    | nil =>
      simp only [List.map_cons, List.map_nil, List.cons.injEq, and_true] at h
      simp [matchUnitTok, eatTok, h]
    | cons c2 t2 => simp at h

theorem matchUnitTok_lower_item (tok : List Char)
    (h : tok.map toLowerA = ['i', 't', 'e', 'm']) :
    matchUnitTok tok = some (.item, []) := by
  cases tok with
  | nil => simp at h
  | cons c1 t1 =>
    cases t1 with
    | nil => simp at h
    | cons c2 t2 =>
      cases t2 with
      | nil => simp at h
      | cons c3 t3 =>
        cases t3 with
        | nil => simp at h
        | cons c4 t4 =>
          cases t4 with
          | nil =>
            simp only [List.map_cons, List.map_nil, List.cons.injEq,
              and_true] at h
            simp [matchUnitTok, eatTok, h.1, h.2.1, h.2.2.1, h.2.2.2]
          | cons c5 t5 => simp at h

/-- Head character of a recognised unit token is not a digit, not
whitespace and not a dot. -/
theorem tok_head_facts (tok : List Char)
    (htok : tok.map toLowerA = ['g'] ∨ tok.map toLowerA = ['k', 'g'] ∨
      tok.map toLowerA = ['m', 'l'] ∨ tok.map toLowerA = ['l'] ∨
      tok.map toLowerA = ['i', 't', 'e', 'm']) :
    tok ≠ [] ∧ ∀ y, tok.head? = some y →
      isDigitC y = false ∧ isWSC y = false ∧ y ≠ '.' := by
  cases tok with
  | nil => rcases htok with h | h | h | h | h <;> simp at h
  | cons c1 t1 =>
    have hc1 : toLowerA c1 = 'g' ∨ toLowerA c1 = 'k' ∨ toLowerA c1 = 'm' ∨
        toLowerA c1 = 'l' ∨ toLowerA c1 = 'i' := by
      rcases htok with h | h | h | h | h <;>
        simp only [List.map_cons, List.cons.injEq] at h <;> tauto
    refine ⟨by simp, ?_⟩
    intro y hy
    have hyc : y = c1 := by
      simp only [List.head?_cons, Option.some.injEq] at hy
      exact hy.symm
    subst hyc
    rcases hc1 with h | h | h | h | h <;>
      exact ⟨notDigit_of_lower h (by decide), notWS_of_lower h (by decide),
        ne_dot_of_lower h (by decide)⟩

/-- C3: every well-formed size string — a sign-free decimal number,
optional whitespace, then a unit token from g / kg / ml / l / item
matched case-insensitively — normalizes to the number's value scaled by
1000 for kg and l, with base unit gram (g, kg), milliliter (ml, l) or
item. -/
theorem parsePackageSize_wellFormed
    (s : String) (ds : List Char) (fso : Option (List Char))
    (ws tok : List Char)
    (hsplit : s.data = ds ++ (fracStr fso ++ (ws ++ tok)))
    (hne : ds ≠ []) (hds : ∀ c ∈ ds, isDigitC c = true)
    (hfs : ∀ fs, fso = some fs → fs ≠ [] ∧ ∀ c ∈ fs, isDigitC c = true)
    (hws : ∀ c ∈ ws, isWSC c = true)
    (htok : tok.map toLowerA = ['g'] ∨ tok.map toLowerA = ['k', 'g'] ∨
      tok.map toLowerA = ['m', 'l'] ∨ tok.map toLowerA = ['l'] ∨
      tok.map toLowerA = ['i', 't', 'e', 'm']) :
    parsePackageSize s =
      some ⟨decValue ds fso * tokUnitScale (tok.map toLowerA),
            tokUnitBase (tok.map toLowerA)⟩ := by
  obtain ⟨htne, hthead⟩ := tok_head_facts tok htok
  have hwt_head : ∀ y, (ws ++ tok).head? = some y → isDigitC y = false := by
    intro y hy
    cases ws with
    | nil =>
      simp only [List.nil_append] at hy
      exact (hthead y hy).1
    | cons w wr =>
      simp only [List.cons_append, List.head?_cons, Option.some.injEq] at hy
      subst hy
      exact ws_not_digit (hws w (by simp))
  have hwt_ne_dot : ∀ y, (ws ++ tok).head? = some y → y ≠ '.' := by
    intro y hy
    cases ws with
    | nil =>
      simp only [List.nil_append] at hy
      exact (hthead y hy).2.2
    | cons w wr =>
      simp only [List.cons_append, List.head?_cons, Option.some.injEq] at hy
      subst hy
      exact ws_ne_dot (hws w (by simp))
  have hdw : (ws ++ tok).dropWhile isWSC = tok :=
    (span_append isWSC ws tok hws (fun y hy => (hthead y hy).2.1)).2
  have hMF : matchFrac (fracStr fso ++ (ws ++ tok)) = (fso, ws ++ tok) := by
    cases fso with
    | none =>
      simp only [fracStr, List.nil_append]
      exact matchFrac_of_ne_dot _ hwt_ne_dot
    | some fs =>
      obtain ⟨hfne, hfd⟩ := hfs fs rfl
      simp only [fracStr, List.cons_append]
      exact matchFrac_some fs (ws ++ tok) hfne hfd hwt_head
  have hRhead : ∀ y, (fracStr fso ++ (ws ++ tok)).head? = some y →
      isDigitC y = false := by
    intro y hy
    cases fso with
    | none =>
      simp only [fracStr, List.nil_append] at hy
      exact hwt_head y hy
    | some fs =>
      simp only [fracStr, List.cons_append, List.head?_cons,
        Option.some.injEq] at hy
      subst hy
      decide
  obtain ⟨hsp1, hsp2⟩ :=
    span_append isDigitC ds (fracStr fso ++ (ws ++ tok)) hds hRhead
  have hdse : ds.isEmpty = false := by
    cases ds with
    | nil => exact absurd rfl hne
    | cons a t => rfl
  have hAt : matchAt (ds ++ (fracStr fso ++ (ws ++ tok))) =
      match matchUnitTok tok with
      | none => none
      | some (u, _) => some (decValue ds fso, u) := by
    simp only [matchAt, hsp1, hsp2, hdse, Bool.false_eq_true, if_false, hMF,
      hdw]
  have hfind : ∀ u, matchUnitTok tok = some (u, []) →
      findMatch s.data = some (decValue ds fso, u) := by
    intro u hu
    rw [hsplit]
    cases ds with
    | nil => exact absurd rfl hne
    | cons d ds2 =>
      have : matchAt (d :: (ds2 ++ (fracStr fso ++ (ws ++ tok)))) =
          some (decValue (d :: ds2) fso, u) := by
        rw [← List.cons_append, hAt, hu]
      simp only [List.cons_append, findMatch, List.append_eq, this]
  rcases htok with h | h | h | h | h
  · have := hfind _ (matchUnitTok_lower_g tok h)
    simp [parsePackageSize, parsePackageSizeL, this, h, tokUnitScale,
      tokUnitBase]
  · have := hfind _ (matchUnitTok_lower_kg tok h)
    simp [parsePackageSize, parsePackageSizeL, this, h, tokUnitScale,
      tokUnitBase]
  · have := hfind _ (matchUnitTok_lower_ml tok h)
    simp [parsePackageSize, parsePackageSizeL, this, h, tokUnitScale,
      tokUnitBase]
  · have := hfind _ (matchUnitTok_lower_l tok h)
    simp [parsePackageSize, parsePackageSizeL, this, h, tokUnitScale,
      tokUnitBase]
  · have := hfind _ (matchUnitTok_lower_item tok h)
    simp [parsePackageSize, parsePackageSizeL, this, h, tokUnitScale,
      tokUnitBase]

/-! ## List access lemmas -/

theorem get?_set_self {α : Type} (l : List α) (i : ℕ) (a : α)
    (h : i < l.length) : (l.set i a).get? i = some a := by
  induction l generalizing i with
  | nil => exact absurd h (by simp)
  | cons x xs ih =>
    cases i with
    | zero => rfl
    | succ j => exact ih j (by simpa using h)

theorem get?_set_ne {α : Type} (l : List α) (i j : ℕ) (a : α)
    (h : i ≠ j) : (l.set i a).get? j = l.get? j := by
  induction l generalizing i j with
  | nil => simp
  | cons x xs ih =>
    cases i with
    | zero =>
      cases j with
      | zero => exact absurd rfl h
      | succ k => rfl
    | succ i2 =>
      cases j with
      | zero => rfl
      | succ k => exact ih i2 k (fun he => h (by rw [he]))

/-- `Array.prototype.reduce` summing costs equals the sum of the costs. -/
theorem foldl_cost_sum (l : List IngredientLine) (a : ℚ) :
    l.foldl (fun sum ing => sum + ing.cost) a =
      a + (l.map (fun ing => ing.cost)).sum := by
  induction l generalizing a with
  | nil => simp
  | cons x xs ih =>
    simp only [List.foldl_cons, List.map_cons, List.sum_cons, ih, add_assoc]

/-! ## Inverting a successful `saveEdit` -/

theorem saveEdit_ok_iff (r : RecipeResult) (i : ℕ) (sz pr : String)
    (res : RecipeResult) :
    saveEdit r i sz pr = .ok res ↔
      ∃ s p ing, parseFloatStr sz = some s ∧ ¬s ≤ 0 ∧
        parseFloatStr pr = some p ∧ ¬p < 0 ∧
        r.ingredients.get? i = some ing ∧ res = recompute r i s p ing := by
  unfold saveEdit
  cases hs : parseFloatStr sz with
  | none => simp
  | some s =>
    dsimp only
    by_cases h0 : s ≤ 0
    · simp only [h0, if_true]
      constructor
      · intro h
        exact absurd h (by simp)
      · rintro ⟨s2, p, ing, hs2, hns, _⟩
        rw [Option.some_inj] at hs2
        subst hs2
        exact absurd h0 hns
    · rw [if_neg h0]
      cases hp : parseFloatStr pr with
      | none =>
        constructor
        · intro h
          exact absurd h (by simp)
        · rintro ⟨s2, p, ing, hs2, _, hp2, _⟩
          cases hp2
      | some p =>
        dsimp only
        by_cases h1 : p < 0
        · simp only [h1, if_true]
          constructor
          · intro h
            exact absurd h (by simp)
          · rintro ⟨s2, p2, ing, hs2, _, hp2, hnp, _⟩
            rw [Option.some_inj] at hp2
            subst hp2
            exact absurd h1 hnp
        · rw [if_neg h1]
          cases hi : r.ingredients.get? i with
          | none =>
            constructor
            · intro h
              exact absurd h (by simp)
            · rintro ⟨s2, p2, ing, _, _, _, _, hi2, _⟩
              cases hi2
          | some ing =>
            dsimp only
            constructor
            · intro h
              rw [Except.ok.injEq] at h
              exact ⟨s, p, ing, rfl, h0, rfl, h1, rfl, h.symm⟩
            · rintro ⟨s2, p2, ing2, hs2, _, hp2, _, hi2, hres⟩
              rw [Option.some_inj] at hs2 hp2 hi2
              subst hs2
              subst hp2
              subst hi2
              rw [hres]

/-! ## `parseFloat` on a number with an inert tail -/

theorem digit_not_ws {c : Char} (h : isDigitC c = true) : isWSC c = false := by
  simp only [isDigitC, Bool.and_eq_true, decide_eq_true_eq] at h
  simp only [isWSC, Bool.or_eq_false_iff, decide_eq_false_iff_not]
  omega

theorem digit_ne_of_not {c x : Char} (h : isDigitC c = true)
    (hx : isDigitC x = false) : c ≠ x := by
  intro he
  subst he
  rw [h] at hx
  cases hx

theorem parseExp_notE (t : List Char)
    (h : ∀ y, t.head? = some y → ¬(y = 'e' ∨ y = 'E')) : parseExp t = 0 := by
  cases t with
  | nil => rfl
  | cons c r =>
    simp only [parseExp]
    rw [if_neg (h c rfl)]

/-- `parseFloat` of a plain decimal number followed by characters that
can extend neither the number nor an exponent part: the tail is
ignored and the number's value is returned. -/
theorem parseFloatL_num_tail (ds : List Char) (fso : Option (List Char))
    (tl : List Char) (hne : ds ≠ [])
    (hds : ∀ c ∈ ds, isDigitC c = true)
    (hfs : ∀ fs, fso = some fs → fs ≠ [] ∧ ∀ c ∈ fs, isDigitC c = true)
    (htl : ∀ c ∈ tl, isDigitC c = false ∧ c ≠ '.' ∧ c ≠ 'e' ∧ c ≠ 'E') :
    parseFloatL (ds ++ (fracStr fso ++ tl)) = some (decValue ds fso) := by
  have htl_head : ∀ y, tl.head? = some y →
      isDigitC y = false ∧ y ≠ '.' ∧ y ≠ 'e' ∧ y ≠ 'E' := by
    intro y hy
    cases tl with
    | nil => cases hy
    | cons c r =>
      simp only [List.head?_cons, Option.some.injEq] at hy
      subst hy
      exact htl c (by simp)
  have hRhead : ∀ y, (fracStr fso ++ tl).head? = some y →
      isDigitC y = false := by
    intro y hy
    cases fso with
    | none =>
      simp only [fracStr, List.nil_append] at hy
      exact (htl_head y hy).1
    | some fs =>
      simp only [fracStr, List.cons_append, List.head?_cons,
        Option.some.injEq] at hy
      subst hy
      decide
  have hexp : parseExp tl = 0 := by
    refine parseExp_notE tl ?_
    intro y hy
    rcases htl_head y hy with ⟨_, _, he, hE⟩
    rintro (rfl | rfl)
    · exact he rfl
    · exact hE rfl
  obtain ⟨hsp1, hsp2⟩ :=
    span_append isDigitC ds (fracStr fso ++ tl) hds hRhead
  have hconv : parseFloatL (ds ++ (fracStr fso ++ tl)) =
      parseUnsignedDec (ds ++ (fracStr fso ++ tl)) := by
    cases ds with
    | nil => exact absurd rfl hne
    | cons d ds2 =>
      have hd : isDigitC d = true := hds d (by simp)
      unfold parseFloatL
      rw [List.cons_append,
        List.dropWhile_cons_of_neg (by simp [digit_not_ws hd])]
      dsimp only
      rw [if_neg (digit_ne_of_not hd (by decide)),
        if_neg (digit_ne_of_not hd (by decide)), ← List.cons_append]
  rw [hconv]
  have hdse : ds.isEmpty = false := by
    cases ds with
    | nil => exact absurd rfl hne
    | cons a t => rfl
  unfold parseUnsignedDec
  rw [hsp1, hsp2]
  simp only [hdse, Bool.false_eq_true, if_false]
  cases fso with
  | none =>
    simp only [fracStr, List.nil_append]
    cases tl with
    | nil =>
      simp [parseExp, decValue]
    | cons c r2 =>
      have hcd := htl c (by simp)
      dsimp only
      rw [if_neg hcd.2.1, hexp]
      simp [decValue]
  | some fs =>
    obtain ⟨hfne, hfd⟩ := hfs fs rfl
    have hfe : fs.isEmpty = false := by
      cases fs with
      | nil => exact absurd rfl hfne
      | cons a t => rfl
    obtain ⟨hfsp1, hfsp2⟩ := span_append isDigitC fs tl hfd
      (fun y hy => (htl_head y hy).1)
    simp only [fracStr, List.cons_append]
    rw [if_pos trivial, hfsp1, hfsp2, hexp]
    simp [hfe, decValue]

/-! ## Inverting a successful scan into a grammar occurrence -/

theorem eatTok_decomp (pat : List Char) :
    ∀ s r, eatTok pat s = some r →
      ∃ tok, s = tok ++ r ∧ tok.map toLowerA = pat := by
  induction pat with
  | nil =>
    intro s r h
    simp only [eatTok, Option.some_inj] at h
    exact ⟨[], by rw [h, List.nil_append], rfl⟩
  | cons p ps ih =>
    intro s r h
    cases s with
    | nil => cases h
    | cons c cs =>
      simp only [eatTok] at h
      by_cases hc : toLowerA c = p
      · rw [if_pos hc] at h
        obtain ⟨tok, heq, hmap⟩ := ih cs r h
        exact ⟨c :: tok, by rw [List.cons_append, heq],
          by simp [hmap, hc]⟩
      · rw [if_neg hc] at h
        cases h

theorem matchUnitTok_decomp (s : List Char) (u : UnitTok) (r : List Char)
    (h : matchUnitTok s = some (u, r)) :
    ∃ tok, s = tok ++ r ∧
      (tok.map toLowerA = ['g'] ∨ tok.map toLowerA = ['k', 'g'] ∨
        tok.map toLowerA = ['m', 'l'] ∨ tok.map toLowerA = ['l'] ∨
        tok.map toLowerA = ['i', 't', 'e', 'm']) := by
  unfold matchUnitTok at h
  cases h1 : eatTok ['g'] s with
  | some r1 =>
    rw [h1] at h
    simp only [Option.some_inj, Prod.mk.injEq] at h
    obtain ⟨tok, heq, hmap⟩ := eatTok_decomp ['g'] s r1 h1
    exact ⟨tok, h.2 ▸ heq, Or.inl hmap⟩
  | none =>
    rw [h1] at h
    cases h2 : eatTok ['k', 'g'] s with
    | some r2 =>
      rw [h2] at h
      simp only [Option.some_inj, Prod.mk.injEq] at h
      obtain ⟨tok, heq, hmap⟩ := eatTok_decomp ['k', 'g'] s r2 h2
      exact ⟨tok, h.2 ▸ heq, Or.inr (Or.inl hmap)⟩
    | none =>
      rw [h2] at h
      cases h3 : eatTok ['m', 'l'] s with
      | some r3 =>
        rw [h3] at h
        simp only [Option.some_inj, Prod.mk.injEq] at h
        obtain ⟨tok, heq, hmap⟩ := eatTok_decomp ['m', 'l'] s r3 h3
        exact ⟨tok, h.2 ▸ heq, Or.inr (Or.inr (Or.inl hmap))⟩
      | none =>
        rw [h3] at h
        cases h4 : eatTok ['l'] s with
        | some r4 =>
          rw [h4] at h
          simp only [Option.some_inj, Prod.mk.injEq] at h
          obtain ⟨tok, heq, hmap⟩ := eatTok_decomp ['l'] s r4 h4
          exact ⟨tok, h.2 ▸ heq, Or.inr (Or.inr (Or.inr (Or.inl hmap)))⟩
        | none =>
          rw [h4] at h
          cases h5 : eatTok ['i', 't', 'e', 'm'] s with
          | some r5 =>
            rw [h5] at h
            simp only [Option.map_some', Option.some_inj,
              Prod.mk.injEq] at h
            obtain ⟨tok, heq, hmap⟩ :=
              eatTok_decomp ['i', 't', 'e', 'm'] s r5 h5
            exact ⟨tok, h.2 ▸ heq,
              Or.inr (Or.inr (Or.inr (Or.inr hmap)))⟩
          | none =>
            rw [h5] at h
            cases h

theorem matchFrac_decomp (t : List Char) (fso : Option (List Char))
    (r2 : List Char) (h : matchFrac t = (fso, r2)) :
    t = fracStr fso ++ r2 ∧
      ∀ fs, fso = some fs → fs ≠ [] ∧ ∀ c ∈ fs, isDigitC c = true := by
  unfold matchFrac at h
  cases t with
  | nil =>
    simp only [Prod.mk.injEq] at h
    obtain ⟨rfl, rfl⟩ := h
    exact ⟨rfl, fun fs hfs => nomatch hfs⟩
  | cons c r =>
    dsimp only at h
    by_cases hc : c = '.'
    · rw [if_pos hc] at h
      by_cases hfe : (r.takeWhile isDigitC).isEmpty
      · simp only [hfe, if_true, Prod.mk.injEq] at h
        obtain ⟨rfl, rfl⟩ := h
        exact ⟨rfl, fun fs hfs => nomatch hfs⟩
      · simp only [hfe, Bool.false_eq_true, if_false, Prod.mk.injEq] at h
        obtain ⟨rfl, rfl⟩ := h
        constructor
        · simp only [fracStr, hc, List.cons_append,
            List.takeWhile_append_dropWhile]
        · intro fs hfs
          rw [Option.some_inj] at hfs
          subst hfs
          constructor
          · intro hnil
            rw [hnil] at hfe
            exact hfe rfl
          · intro c2 hc2
            exact List.mem_takeWhile_imp hc2
    · rw [if_neg hc] at h
      simp only [Prod.mk.injEq] at h
      obtain ⟨rfl, rfl⟩ := h
      exact ⟨rfl, fun fs hfs => nomatch hfs⟩

theorem matchAt_occurrence (l : List Char) (x : ℚ × UnitTok)
    (h : matchAt l = some x) : SizeOccurrence l := by
  unfold matchAt at h
  by_cases hde : (l.takeWhile isDigitC).isEmpty
  · rw [if_pos hde] at h
    cases h
  · rw [if_neg hde] at h
    dsimp only at h
    rcases hmf : matchFrac (l.dropWhile isDigitC) with ⟨fso, r2⟩
    rw [hmf] at h
    dsimp only at h
    cases hmu : matchUnitTok (r2.dropWhile isWSC) with
    | none =>
      rw [hmu] at h
      cases h
    | some ur =>
      obtain ⟨hfr, hffacts⟩ :=
        matchFrac_decomp (l.dropWhile isDigitC) fso r2 hmf
      obtain ⟨tok, htr, htpat⟩ :=
        matchUnitTok_decomp (r2.dropWhile isWSC) ur.1 ur.2
          (by rw [hmu])
      refine ⟨[], l.takeWhile isDigitC, fso, r2.takeWhile isWSC, tok,
        (r2.dropWhile isWSC).drop tok.length, ?_, ?_, ?_, hffacts, ?_,
        htpat⟩
      · have h1 : tok ++ (r2.dropWhile isWSC).drop tok.length =
            r2.dropWhile isWSC := by
          rw [htr]
          simp
        rw [List.nil_append, h1, List.takeWhile_append_dropWhile, ← hfr,
          List.takeWhile_append_dropWhile]
      · intro hnil
        rw [hnil] at hde
        exact hde rfl
      · intro c hc
        exact List.mem_takeWhile_imp hc
      · intro c hc
        exact List.mem_takeWhile_imp hc

theorem sizeOccurrence_cons (c : Char) (l : List Char)
    (h : SizeOccurrence l) : SizeOccurrence (c :: l) := by
  obtain ⟨pre, ds, fso, ws, tok, post, heq, hrest⟩ := h
  exact ⟨c :: pre, ds, fso, ws, tok, post,
    by rw [List.cons_append, ← heq], hrest⟩

theorem findMatch_occurrence (l : List Char) (x : ℚ × UnitTok)
    (h : findMatch l = some x) : SizeOccurrence l := by
  induction l with
  | nil => cases h
  | cons c rest ih =>
    simp only [findMatch] at h
    cases hma : matchAt (c :: rest) with
    | some y => exact matchAt_occurrence (c :: rest) y hma
    | none =>
      rw [hma] at h
      exact sizeOccurrence_cons c rest (ih h)

/-- A grammar occurrence brings a character that lowercases to the
first letter of one of the unit tokens. -/
theorem sizeOccurrence_has_unit_head (l : List Char)
    (h : SizeOccurrence l) :
    ∃ c ∈ l, toLowerA c = 'g' ∨ toLowerA c = 'k' ∨ toLowerA c = 'm' ∨
      toLowerA c = 'l' ∨ toLowerA c = 'i' := by
  obtain ⟨pre, ds, fso, ws, tok, post, heq, _, _, _, _, htok⟩ := h
  cases tok with
  | nil => rcases htok with h1 | h1 | h1 | h1 | h1 <;> simp at h1
  | cons c1 t1 =>
    have hc1 : toLowerA c1 = 'g' ∨ toLowerA c1 = 'k' ∨
        toLowerA c1 = 'm' ∨ toLowerA c1 = 'l' ∨ toLowerA c1 = 'i' := by
      rcases htok with h1 | h1 | h1 | h1 | h1 <;>
        simp only [List.map_cons, List.cons.injEq] at h1 <;> tauto
    exact ⟨c1, by simp [heq], hc1⟩

/-! ## Claims -/

/-- C1: for every recipe result, every index whose line has package
info, and inputs parsing to a size `s > 0` and a price `p ≥ 0`,
`saveEdit` succeeds, and the returned line at that index equals the old
line except that `cost = (p / s) * quantity`, `manuallyAdjusted` is
true, and `packageInfo` is rebuilt as the rendered magnitude followed
by the base-unit suffix of the line's unit family, with `price = p`,
`costPerUnit = p / s` and the line's unit family. -/
theorem saveEdit_updates_line (r : RecipeResult) (i : ℕ) (sz pr : String)
    (line : IngredientLine) (s p : ℚ)
    (hline : r.ingredients.get? i = some line)
    (_hpi : line.package_info.isSome = true)
    (hs : parseFloatStr sz = some s) (hs0 : 0 < s)
    (hp : parseFloatStr pr = some p) (hp0 : 0 ≤ p) :
    ∃ res, saveEdit r i sz pr = .ok res ∧
      res.ingredients.get? i = some
        { line with
          cost := p / s * line.quantity
          manually_adjusted := true
          package_info := some
            { size := qToDecString s ++ unitDisplay line.unit
              price := p
              cost_per_unit := p / s
              unit := line.unit } } := by
  have hok : saveEdit r i sz pr = .ok (recompute r i s p line) := by
    unfold saveEdit
    rw [hs]
    dsimp only
    rw [if_neg (not_le.mpr hs0), hp]
    dsimp only
    rw [if_neg (not_lt.mpr hp0), hline]
  refine ⟨_, hok, ?_⟩
  have hi : i < r.ingredients.length := by
    rcases Nat.lt_or_ge i r.ingredients.length with h | h
    · exact h
    · rw [List.get?_eq_none.mpr h] at hline
      cases hline
  unfold recompute
  dsimp only
  rw [get?_set_self _ _ _ hi]

/-- C1 witness: the first sample recipe edited with size 500 and price
4.00. -/
theorem saveEdit_updates_line_witness :
    ∃ res, saveEdit sampleRecipe1 0 "500" "4.00" = .ok res ∧
      res.ingredients.get? 0 = some
        { ingredient := "oats"
          quantity := 60
          unit := .gram
          cost := (4 : ℚ) / 500 * 60
          manually_adjusted := true
          package_info := some
            { size := qToDecString 500 ++ unitDisplay .gram
              price := 4
              cost_per_unit := (4 : ℚ) / 500
              unit := .gram }
          note := none } :=
  saveEdit_updates_line sampleRecipe1 0 "500" "4.00"
    { ingredient := "oats"
      quantity := 60
      unit := .gram
      cost := 23 / 50
      manually_adjusted := false
      package_info := some
        { size := "454g", price := 7 / 2, cost_per_unit := 7 / 908,
          unit := .gram }
      note := none }
    500 4 rfl rfl rfl (by norm_num) rfl (by norm_num)

/-- C2: every result returned by a successful `saveEdit` has
`totalCost` equal to the sum of the new lines' costs and `unitCost`
equal to `totalCost / yieldCount`. -/
theorem saveEdit_totals (r : RecipeResult) (i : ℕ) (sz pr : String)
    (res : RecipeResult) (h : saveEdit r i sz pr = .ok res) :
    res.total_cost = (res.ingredients.map (fun l => l.cost)).sum ∧
    res.unit_cost = res.total_cost / (res.yield_count : ℚ) := by
  obtain ⟨s, p, ing, _, _, _, _, _, rfl⟩ := (saveEdit_ok_iff r i sz pr res).1 h
  constructor
  · unfold recompute
    dsimp only
    rw [foldl_cost_sum, zero_add]
  · rfl

/-- C2 witness: totals of the first sample recipe after a successful
edit. -/
theorem saveEdit_totals_witness :
    ∃ res, saveEdit sampleRecipe1 0 "500" "4.00" = .ok res ∧
      res.total_cost = (res.ingredients.map (fun l => l.cost)).sum ∧
      res.unit_cost = res.total_cost / (res.yield_count : ℚ) := by
  refine ⟨recompute sampleRecipe1 0 500 4
    (sampleRecipe1.ingredients.get ⟨0, by decide⟩), rfl, ?_⟩
  exact saveEdit_totals sampleRecipe1 0 "500" "4.00" _ rfl

/-- C5: `saveEdit` fails with `InvalidPackageSize` exactly when the raw
size does not parse as a number or parses to a value `≤ 0`; when the
size is valid it fails with `InvalidPackagePrice` exactly when the raw
price does not parse as a number or parses to a value `< 0`. -/
theorem saveEdit_validation (r : RecipeResult) (i : ℕ) (sz pr : String) :
    (saveEdit r i sz pr = .error .invalidPackageSize ↔
      parseFloatStr sz = none ∨ ∃ v, parseFloatStr sz = some v ∧ v ≤ 0) ∧
    ((∃ v, parseFloatStr sz = some v ∧ 0 < v) →
      (saveEdit r i sz pr = .error .invalidPackagePrice ↔
        parseFloatStr pr = none ∨ ∃ w, parseFloatStr pr = some w ∧ w < 0)) := by
  unfold saveEdit
  cases hs : parseFloatStr sz with
  | none =>
    refine ⟨by simp, ?_⟩
    rintro ⟨v, hv, _⟩
    cases hv
  | some s =>
    dsimp only
    by_cases h0 : s ≤ 0
    · rw [if_pos h0]
      constructor
      · exact ⟨fun _ => Or.inr ⟨s, rfl, h0⟩, fun _ => rfl⟩
      · rintro ⟨v, hv, hv0⟩
        rw [Option.some_inj] at hv
        subst hv
        exact absurd h0 (not_le.mpr hv0)
    · rw [if_neg h0]
      have hleft : ¬((some s : Option ℚ) = none ∨
          ∃ v, (some s : Option ℚ) = some v ∧ v ≤ 0) := by
        rintro (h | ⟨v, hv, hv0⟩)
        · cases h
        · rw [Option.some_inj] at hv
          subst hv
          exact h0 hv0
      cases hp : parseFloatStr pr with
      | none =>
        dsimp only
        refine ⟨⟨fun h => by simp at h, fun h => absurd h hleft⟩, ?_⟩
        exact fun _ => ⟨fun _ => Or.inl rfl, fun _ => rfl⟩
      | some p =>
        dsimp only
        by_cases h1 : p < 0
        · rw [if_pos h1]
          refine ⟨⟨fun h => by simp at h, fun h => absurd h hleft⟩, ?_⟩
          exact fun _ => ⟨fun _ => Or.inr ⟨p, rfl, h1⟩, fun _ => rfl⟩
        · rw [if_neg h1]
          have hright : ¬((some p : Option ℚ) = none ∨
              ∃ w, (some p : Option ℚ) = some w ∧ w < 0) := by
            rintro (h | ⟨w, hw, hw0⟩)
            · cases h
            · rw [Option.some_inj] at hw
              subst hw
              exact h1 hw0
          cases hi : r.ingredients.get? i with
          | none =>
            dsimp only
            refine ⟨⟨fun h => by simp at h, fun h => absurd h hleft⟩, ?_⟩
            exact fun _ => ⟨fun h => by simp at h, fun h => absurd h hright⟩
          | some ing =>
            dsimp only
            refine ⟨⟨fun h => by simp at h, fun h => absurd h hleft⟩, ?_⟩
            exact fun _ => ⟨fun h => by simp at h, fun h => absurd h hright⟩

/-- C5 witness: size "0" is rejected as `InvalidPackageSize` and, for a
valid size, price "-1" is rejected as `InvalidPackagePrice`. -/
theorem saveEdit_validation_witness :
    saveEdit sampleRecipe1 0 "0" "4.00" = .error .invalidPackageSize ∧
    saveEdit sampleRecipe1 0 "500" "-1" = .error .invalidPackagePrice := by
  constructor
  · exact (saveEdit_validation sampleRecipe1 0 "0" "4.00").1.mpr
      (Or.inr ⟨0, rfl, le_refl 0⟩)
  · exact ((saveEdit_validation sampleRecipe1 0 "500" "-1").2
      ⟨500, rfl, by norm_num⟩).mpr (Or.inr ⟨-1, rfl, by norm_num⟩)

/-- C6: on any failing `saveEdit`, the caller's `result` state is left
exactly as it was (the `setResult` call only runs on the success
path). -/
theorem saveEdit_error_preserves (r : RecipeResult) (i : ℕ)
    (sz pr : String) (e : SaveEditError)
    (h : saveEdit r i sz pr = .error e) :
    applySaveEdit r i sz pr = r := by
  unfold applySaveEdit
  rw [h]

/-- C6 witness: a non-numeric size leaves the sample recipe
unchanged. -/
theorem saveEdit_error_preserves_witness :
    applySaveEdit sampleRecipe1 0 "abc" "4.00" = sampleRecipe1 :=
  saveEdit_error_preserves sampleRecipe1 0 "abc" "4.00"
    .invalidPackageSize rfl

/-- C7: a successful `saveEdit` preserves the number of lines, the
recipe name and the yield; every line keeps its name, quantity, unit
and note, and every line other than the edited one is unchanged
field-for-field. -/
theorem saveEdit_frame (r : RecipeResult) (i : ℕ) (sz pr : String)
    (res : RecipeResult) (h : saveEdit r i sz pr = .ok res) :
    res.ingredients.length = r.ingredients.length ∧
    res.recipe_name = r.recipe_name ∧
    res.yield_count = r.yield_count ∧
    ∀ j line2, res.ingredients.get? j = some line2 →
      ∃ line1, r.ingredients.get? j = some line1 ∧
        line2.ingredient = line1.ingredient ∧
        line2.quantity = line1.quantity ∧
        line2.unit = line1.unit ∧
        line2.note = line1.note ∧
        (j ≠ i → line2 = line1) := by
  obtain ⟨s, p, ing, _, _, _, _, hing, rfl⟩ :=
    (saveEdit_ok_iff r i sz pr res).1 h
  refine ⟨by simp [recompute], rfl, rfl, ?_⟩
  intro j line2 hj
  by_cases hji : j = i
  · subst hji
    have hlen : j < r.ingredients.length := by
      rcases Nat.lt_or_ge j r.ingredients.length with hlt | hge
      · exact hlt
      · rw [List.get?_eq_none.mpr hge] at hing
        cases hing
    refine ⟨ing, hing, ?_⟩
    unfold recompute at hj
    dsimp only at hj
    rw [get?_set_self _ _ _ hlen, Option.some_inj] at hj
    subst hj
    exact ⟨rfl, rfl, rfl, rfl, fun hne => absurd rfl hne⟩
  · refine ⟨line2, ?_, rfl, rfl, rfl, rfl, fun _ => rfl⟩
    unfold recompute at hj
    dsimp only at hj
    rw [get?_set_ne _ i j _ (fun he => hji he.symm)] at hj
    exact hj

/-- C7 witness: frame conditions hold on the first sample recipe after
an edit. -/
theorem saveEdit_frame_witness :
    ∃ res, saveEdit sampleRecipe1 0 "500" "4.00" = .ok res ∧
      res.ingredients.length = sampleRecipe1.ingredients.length ∧
      res.recipe_name = sampleRecipe1.recipe_name ∧
      res.yield_count = sampleRecipe1.yield_count := by
  refine ⟨recompute sampleRecipe1 0 500 4
    (sampleRecipe1.ingredients.get ⟨0, by decide⟩), rfl, ?_⟩
  obtain ⟨h1, h2, h3, _⟩ :=
    saveEdit_frame sampleRecipe1 0 "500" "4.00" _ rfl
  exact ⟨h1, h2, h3⟩

/-- C9: `saveEdit` is a deterministic function of its four arguments —
calls on equal states, indices and raw inputs return equal results. -/
theorem saveEdit_deterministic (r1 r2 : RecipeResult) (i1 i2 : ℕ)
    (sz1 sz2 pr1 pr2 : String)
    (hr : r1 = r2) (hi : i1 = i2) (hsz : sz1 = sz2) (hpr : pr1 = pr2) :
    saveEdit r1 i1 sz1 pr1 = saveEdit r2 i2 sz2 pr2 := by
  subst hr
  subst hi
  subst hsz
  subst hpr
  rfl

/-- C9 witness: repeating the sample edit returns the same result. -/
theorem saveEdit_deterministic_witness :
    saveEdit sampleRecipe1 0 "500" "4.00" =
      saveEdit sampleRecipe1 0 "500" "4.00" :=
  saveEdit_deterministic sampleRecipe1 sampleRecipe1 0 0
    "500" "500" "4.00" "4.00" rfl rfl rfl rfl

/-- C8: the spec's two numerical scenarios.  Editing the 60 g line
whose package was "454g" at 3.50 to size 500 and price 4.00 gives cost
per unit exactly 0.008 = 1/125, line cost exactly 0.48 = 12/25, and
marks the line adjusted; editing line 0 of the two-line recipe so its
cost becomes 0.60 gives total cost exactly 0.82 = 41/50, unit cost
0.82 / 6 = 41/300, and leaves line 1's cost exactly 0.22 = 11/50. -/
theorem saveEdit_scenarios :
    ((saveEdit sampleRecipe1 0 "500" "4.00").toOption.bind
        (fun res => res.ingredients.get? 0)).map
        (fun l => (l.cost, l.manually_adjusted,
          l.package_info.map PackageInfo.cost_per_unit)) =
      some (12 / 25, true, some (1 / 125)) ∧
    (saveEdit sampleRecipe2 0 "1" "0.60").toOption.map
        (fun res => (res.total_cost, res.unit_cost,
          (res.ingredients.get? 1).map (fun l => l.cost))) =
      some (41 / 50, 41 / 300, some (11 / 50)) := by
  constructor
  · rfl
  · rfl

/-- C3 witness: the four normalizer examples, each through the
well-formedness theorem or read off the same parse. -/
theorem parsePackageSize_wellFormed_witness :
    parsePackageSize "454g" = some ⟨454, .gram⟩ ∧
    parsePackageSize "1kg" = some ⟨1000, .gram⟩ ∧
    parsePackageSize "1L" = some ⟨1000, .milliliter⟩ ∧
    parsePackageSize "12 item" = some ⟨12, .item⟩ := by
  refine ⟨?_, ?_, ?_, ?_⟩
  · rw [parsePackageSize_wellFormed "454g" ['4', '5', '4'] none [] ['g']
      rfl (by decide) (by decide) (fun fs h => nomatch h) (by decide)
      (Or.inl (by decide))]
    rfl
  · rw [parsePackageSize_wellFormed "1kg" ['1'] none [] ['k', 'g']
      rfl (by decide) (by decide) (fun fs h => nomatch h) (by decide)
      (Or.inr (Or.inl (by decide)))]
    rfl
  · rw [parsePackageSize_wellFormed "1L" ['1'] none [] ['L']
      rfl (by decide) (by decide) (fun fs h => nomatch h) (by decide)
      (Or.inr (Or.inr (Or.inr (Or.inl (by decide)))))]
    rfl
  · rw [parsePackageSize_wellFormed "12 item" ['1', '2'] none [' ']
      ['i', 't', 'e', 'm'] rfl (by decide) (by decide)
      (fun fs h => nomatch h) (by decide)
      (Or.inr (Or.inr (Or.inr (Or.inr (by decide)))))]
    rfl

/-- C4 counterexample: "x1g" does not match the spec's anchored
grammar, yet `parsePackageSize` succeeds on it (the regular expression
is unanchored and finds the embedded "1g"), refuting the claim that
every non-grammar string is a parse failure. -/
theorem parsePackageSize_unanchored_cex :
    specSizeGrammar "x1g".data = false ∧
    parsePackageSize "x1g" = some ⟨1, .gram⟩ := by
  constructor
  · rfl
  · rfl

/-- C4 (amended): every input string that contains no occurrence of
the pattern — a sign-free decimal number, optional whitespace, then a
unit token from g / kg / ml / l / item matched case-insensitively —
anywhere as a substring (in particular a missing number, an
unrecognized unit token, or the empty string) is a parse failure;
extra characters around an embedded occurrence do not cause failure,
the leftmost occurrence is parsed instead. -/
theorem parsePackageSize_no_occurrence_fails (s : String)
    (h : ¬SizeOccurrence s.data) : parsePackageSize s = none := by
  unfold parsePackageSize parsePackageSizeL
  cases hf : findMatch s.data with
  | none => rfl
  | some x => exact absurd (findMatch_occurrence s.data x hf) h

/-- C4 witness: "abc", the empty string, and the digit-containing
no-occurrence inputs "123" and "12 xyz" all fail to parse. -/
theorem parsePackageSize_no_occurrence_fails_witness :
    parsePackageSize "abc" = none ∧ parsePackageSize "" = none ∧
    parsePackageSize "123" = none ∧ parsePackageSize "12 xyz" = none := by
  refine ⟨?_, ?_, ?_, ?_⟩ <;>
  · apply parsePackageSize_no_occurrence_fails
    intro hocc
    exact absurd (sizeOccurrence_has_unit_head _ hocc) (by decide)

/-- C10: a raw input that starts with a decimal number and continues
with non-numeric characters is not rejected: `parseFloat` takes the
leading prefix, and `saveEdit` returns exactly what it returns for the
prefix alone, whichever of the two raw inputs carries the junk. -/
theorem saveEdit_trailing_junk (r : RecipeResult) (i : ℕ) (other : String)
    (ds : List Char) (fso : Option (List Char)) (tl : List Char)
    (hne : ds ≠ [])
    (hds : ∀ c ∈ ds, isDigitC c = true)
    (hfs : ∀ fs, fso = some fs → fs ≠ [] ∧ ∀ c ∈ fs, isDigitC c = true)
    (htl : ∀ c ∈ tl, isDigitC c = false ∧ c ≠ '.' ∧ c ≠ 'e' ∧ c ≠ 'E') :
    parseFloatStr (String.mk (ds ++ (fracStr fso ++ tl))) =
      some (decValue ds fso) ∧
    saveEdit r i (String.mk (ds ++ (fracStr fso ++ tl))) other =
      saveEdit r i (String.mk (ds ++ fracStr fso)) other ∧
    saveEdit r i other (String.mk (ds ++ (fracStr fso ++ tl))) =
      saveEdit r i other (String.mk (ds ++ fracStr fso)) := by
  have h1 : parseFloatStr (String.mk (ds ++ (fracStr fso ++ tl))) =
      some (decValue ds fso) :=
    parseFloatL_num_tail ds fso tl hne hds hfs htl
  have h2 : parseFloatStr (String.mk (ds ++ fracStr fso)) =
      some (decValue ds fso) := by
    have h3 := parseFloatL_num_tail ds fso [] hne hds hfs (by simp)
    rw [List.append_nil] at h3
    exact h3
  refine ⟨h1, ?_, ?_⟩
  · unfold saveEdit
    rw [h1, h2]
  · unfold saveEdit
    rw [h1, h2]

/-- C10 witness: "500abc" behaves exactly like "500" in both input
positions. -/
theorem saveEdit_trailing_junk_witness :
    parseFloatStr (String.mk (['5', '0', '0'] ++
      (fracStr none ++ ['a', 'b', 'c']))) =
      some (decValue ['5', '0', '0'] none) ∧
    saveEdit sampleRecipe1 0 (String.mk (['5', '0', '0'] ++
        (fracStr none ++ ['a', 'b', 'c']))) "4.00" =
      saveEdit sampleRecipe1 0 (String.mk (['5', '0', '0'] ++
        fracStr none)) "4.00" ∧
    saveEdit sampleRecipe1 0 "4.00" (String.mk (['5', '0', '0'] ++
        (fracStr none ++ ['a', 'b', 'c']))) =
      saveEdit sampleRecipe1 0 "4.00" (String.mk (['5', '0', '0'] ++
        fracStr none)) :=
  saveEdit_trailing_junk sampleRecipe1 0 "4.00" ['5', '0', '0'] none
    ['a', 'b', 'c'] (by decide) (by decide) (fun fs h => nomatch h)
    (by decide)

end UnitCostCalc
